import Mathlib

/-! stereoscope: file references, tar utilities and scratch-directory tracking

Shallow embedding of `pkg/file/reference.go`, `pkg/file/tarutil.go` and the
`tracker` of `client.go`, followed by the properties established about them.

Go strings are modelled by `String`, Go maps by association lists whose keys
are kept unique by `GoMap.insert`, and the process-wide counter `nextID` by
explicit state passing.
-/

namespace Stereoscope

/-! ## pkg/file/reference.go -/

/-- Go `file.Path`, a string type. -/
abbrev Path := String

/-- Go `type ID uint64`: a natural number below `2 ^ 64`. -/
abbrev ID := Nat

/-- Go `file.Reference`. -/
structure Reference where
  id : ID
  Path : Path
  deriving DecidableEq, Repr

/-- Two's-complement wrap of a mathematical integer into a Go `int` that is
`bits` wide: 64 on 64-bit targets such as amd64 and arm64, 32 on 32-bit
targets such as 386 and arm. -/
def wrapInt (bits : Nat) (x : Int) : Int :=
  (x + 2 ^ (bits - 1)) % 2 ^ bits - 2 ^ (bits - 1)

/-- Go conversion `ID(n)` of an `int` to `uint64`: the value, sign-extended,
modulo `2 ^ 64`. -/
def toID (x : Int) : Nat :=
  (x % 18446744073709551616).toNat

/-- The counter read as an unsigned number of `bits` bits. -/
def counterReading (bits : Nat) (x : Int) : Nat :=
  (x % 2 ^ bits).toNat

/-- Go `NewFileReference` on a target whose `int` is `bits` wide: `nextID++`
on the package counter (passed in and returned), then a `Reference` carrying
`ID(nextID)` and the given path. -/
def NewFileReference (bits : Nat) (nextID : Int) (path : Path) : Int × Reference :=
  let nextID := wrapInt bits (nextID + 1)
  (nextID, { Path := path, id := toID nextID })

/-- Go `NewFileReferenceWithID`. -/
def NewFileReferenceWithID (path : Path) (id : Nat) : Reference :=
  { Path := path, id := id % 18446744073709551616 }

/-- A sequence of `NewFileReference` calls made one after the other, one per
path, threading the counter; returns the final counter and the references in
call order. -/
def mintAll (bits : Nat) (nextID : Int) : List Path → Int × List Reference
  | [] => (nextID, [])
  | p :: ps =>
    let r := NewFileReference bits nextID p
    let rest := mintAll bits r.1 ps
    (rest.1, r.2 :: rest.2)

/-- Counter states a process can reach: `var nextID = 0` followed by any
sequence of mints. -/
def ReachableCounter (bits : Nat) (s : Int) : Prop :=
  ∃ ps : List Path, (mintAll bits 0 ps).1 = s

/-! ## path.Clean (Go standard library), used by the metadata scanner -/

/-- Go `path.lazybuf`: the output buffer of `Clean` with its write index `w`.
The bytes below `w` are the output written so far; bytes at or above `w` are
stale and are never read before they are written again. (Go shares the input
string until the first differing byte is written; that aliasing is an
allocation detail and is not modelled.) -/
structure lazybuf where
  buf : List Char
  w : Nat
  deriving DecidableEq, Repr

/-- Go `(*lazybuf).index`. -/
def lazybuf.index (b : lazybuf) (i : Nat) : Char :=
  b.buf.getD i (Char.ofNat 0)

/-- Go `(*lazybuf).append`: write `c` at index `w` and advance `w`; the stale
bytes above `w` are let go. -/
def lazybuf.append (b : lazybuf) (c : Char) : lazybuf :=
  { buf := b.buf.take b.w ++ [c], w := b.w + 1 }

/-- Go `(*lazybuf).string`: the bytes below `w`. -/
def lazybuf.string (b : lazybuf) : List Char :=
  b.buf.take b.w

/-- The inner loop of the `..` case of `Clean`,
`for out.w > dotdot && out.index(out.w) != '/' { out.w-- }`, as a function of
the current `w`. -/
def Clean.backtrack (buf : List Char) (dotdot : Nat) : Nat → Nat
  | 0 => 0
  | w + 1 =>
    if w + 1 > dotdot ∧ buf.getD (w + 1) (Char.ofNat 0) ≠ '/' then
      Clean.backtrack buf dotdot w
    else w + 1

/-- The main loop `for r < n` of Go `path.Clean`. `rest` is `path[r:]`, so
`path[r]` is its head and `r + 1 == n` says its tail is empty. Every
iteration consumes at least one byte of `rest`; `fuel` bounds the number of
iterations and `Clean` supplies the length of the path. -/
def Clean.loop (rooted : Bool) : Nat → List Char → lazybuf → Nat → lazybuf
  | 0, _, out, _ => out
  | fuel + 1, rest, out, dotdot =>
    match rest with
    | [] => out
    | c :: t =>
      if c = '/' then
        -- empty path element
        Clean.loop rooted fuel t out dotdot
      else if c = '.' ∧ (t = [] ∨ t.head? = some '/') then
        -- . element
        Clean.loop rooted fuel t out dotdot
      else if c = '.' ∧ t.head? = some '.' ∧ (t.tail = [] ∨ t.tail.head? = some '/') then
        -- .. element: remove to last /
        if out.w > dotdot then
          -- can backtrack
          Clean.loop rooted fuel t.tail
            { out with w := Clean.backtrack out.buf dotdot (out.w - 1) } dotdot
        else if ¬ rooted then
          -- cannot backtrack, but not rooted, so append .. element.
          let out1 := if out.w > 0 then out.append '/' else out
          let out2 := (out1.append '.').append '.'
          Clean.loop rooted fuel t.tail out2 out2.w
        else
          Clean.loop rooted fuel t.tail out dotdot
      else
        -- real path element: add slash if needed, then copy the element
        let out1 :=
          if (rooted ∧ out.w ≠ 1) ∨ (¬ rooted ∧ out.w ≠ 0) then out.append '/' else out
        let out2 := (rest.takeWhile (fun x => x ≠ '/')).foldl lazybuf.append out1
        Clean.loop rooted fuel (rest.dropWhile (fun x => x ≠ '/')) out2 dotdot

/-- Go `path.Clean` on the bytes of a path. -/
def Clean.chars (path : List Char) : List Char :=
  match path with
  | [] => ['.']
  | c :: _ =>
    let rooted : Bool := c = '/'
    let out : lazybuf := { buf := [], w := 0 }
    let out := if rooted then out.append '/' else out
    let r := if rooted then 1 else 0
    let out := Clean.loop rooted path.length (path.drop r) out r
    -- Turn empty string into "."
    if out.w = 0 then ['.'] else out.string

/-- Go `path.Clean`. -/
def Clean (path : String) : String :=
  String.mk (Clean.chars path.data)

/-! ## Normal form of rooted paths -/

/-- A path element that survives cleaning: not empty, free of the separator,
and neither `.` nor `..`. -/
def GoodSegment (seg : List Char) : Prop :=
  seg ≠ [] ∧ '/' ∉ seg ∧ seg ≠ ['.'] ∧ seg ≠ ['.', '.']

/-- The path `/s₁/s₂/…/sₙ` of the elements `s₁, …, sₙ`. -/
def joinSegments : List (List Char) → List Char
  | [] => []
  | seg :: segs => '/' :: seg ++ joinSegments segs

/-- The rooted path of a list of elements; the root itself for no element. -/
def rootedPath (segs : List (List Char)) : List Char :=
  if segs = [] then ['/'] else joinSegments segs

/-- The elements of an absolute path: what follows its leading separator,
split at the separators. The root `/` has no element. -/
def pathSegments (p : List Char) : List (List Char) :=
  if p.tail = [] then [] else p.tail.splitOn '/'

/-- A normalized absolute path: it begins with the separator, none of its
elements is empty, `.` or `..`, no two separators are adjacent, and what
follows the leading separator does not end in a separator. -/
def Normalized (p : String) : Prop :=
  p.data.head? = some '/' ∧
    (∀ seg ∈ pathSegments p.data, seg ≠ [] ∧ seg ≠ ['.'] ∧ seg ≠ ['.', '.']) ∧
    List.Chain' (fun a b => ¬ (a = '/' ∧ b = '/')) p.data ∧
    p.data.tail.getLast? ≠ some '/'

/-! ## pkg/file/tarutil.go -/

/-- Modelled from the spec: `file.DirSeparator` (declared in a file of the
package that is not among the sources) is the path separator `"/"`. -/
def DirSeparator : String := "/"

/-- Go `tar.TypeXGlobalHeader`. -/
def TypeXGlobalHeader : Char := 'g'

/-- Go `tar.TypeXHeader`. -/
def TypeXHeader : Char := 'x'

/-- The fields of a `tar.Header` this package reads. `Size`, `Mode` and
`IsDir` are the values reported by `header.FileInfo()`. -/
structure Header where
  Name : String
  Typeflag : Char
  Linkname : String
  Uid : Int
  Gid : Int
  Size : Int
  Mode : Nat
  IsDir : Bool
  deriving DecidableEq, Repr

/-- One archive member as `tar.Reader` serves it: the header returned by
`Next` and the outcome of reading the member's content to its end (`bodyErr`
is the error `ioutil.ReadAll` reports, if any). -/
structure TarEntry where
  hdr : Header
  body : String
  bodyErr : Option String
  deriving DecidableEq, Repr

/-- A tar stream as seen through `tar.Reader`: the members `Next` returns in
order, then either `io.EOF` (`nextErr = none`) or a structural read error. -/
structure Archive where
  entries : List TarEntry
  nextErr : Option String
  deriving DecidableEq, Repr

/-- An archive on which no read ever fails. -/
def Archive.WellFormed (a : Archive) : Prop :=
  a.nextErr = none ∧ ∀ e ∈ a.entries, e.bodyErr = none

/-- The input `io.ReadCloser`: a stream with an identity and the archive its
bytes encode. -/
structure ReadCloser where
  handle : Nat
  archive : Archive
  deriving DecidableEq, Repr

/-- Go `tar.Reader` after some calls of `Next`: the member whose content
`Read` currently serves, and what is left of the stream. -/
structure TarReader where
  cur : Option TarEntry
  rest : List TarEntry
  nextErr : Option String
  deriving DecidableEq, Repr

/-- Go `tarFile`: reads come from the tar reader, `Close` goes to the
underlying stream. -/
structure tarFile where
  Reader : TarReader
  Closer : ReadCloser
  deriving DecidableEq, Repr

/-- Errors returned by the tar utilities. -/
inductive TarError where
  /-- An error of `tarReader.Next()`, returned unchanged. -/
  | next (err : String)
  /-- The error `"file %s not found in tar"`. -/
  | notFound (tarPath : String)
  /-- The error `"could not read file: %s: %+v"`. -/
  | couldNotRead (name : String) (err : String)
  /-- The error `"not all files found: %+v"` with the names it lists. -/
  | notAllFound (missingNames : List String)
  deriving DecidableEq, Repr

/-- Reading a tar reader to the end of the current member
(`ioutil.ReadAll(tarReader)`). -/
def TarReader.ReadAll (t : TarReader) : Except String String :=
  match t.cur with
  | none => .ok ""
  | some e =>
    match e.bodyErr with
    | none => .ok e.body
    | some err => .error err

/-- The set of streams that have been closed. -/
abbrev Closed := List Nat

/-- Closing the input stream. -/
def ReadCloser.Close (r : ReadCloser) (closed : Closed) : Closed :=
  r.handle :: closed

/-- Closing a `tarFile` is the promoted `Close` of its embedded `io.Closer`. -/
def tarFile.Close (f : tarFile) (closed : Closed) : Closed :=
  f.Closer.Close closed

/-- The loop of `ReaderFromTar` over the members still to be returned by
`tarReader.Next()`; the empty list is the call of `Next` that reports
`io.EOF` or a read error. -/
def ReaderFromTar.loop (reader : ReadCloser) (tarPath : String) (nextErr : Option String) :
    List TarEntry → Except TarError tarFile
  | [] =>
    match nextErr with
    | none => .error (.notFound tarPath)
    | some err => .error (.next err)
  | e :: es =>
    if e.hdr.Name = tarPath then
      .ok { Reader := { cur := some e, rest := es, nextErr := nextErr }, Closer := reader }
    else ReaderFromTar.loop reader tarPath nextErr es

/-- Go `ReaderFromTar`. -/
def ReaderFromTar (reader : ReadCloser) (tarPath : String) : Except TarError tarFile :=
  ReaderFromTar.loop reader tarPath reader.archive.nextErr reader.archive.entries

/-- A Go map as the list of its key/value pairs; `insert` keeps keys unique. -/
abbrev GoMap (κ : Type) (ν : Type) := List (κ × ν)

/-- The map read `m[k]` with its `ok` flag. -/
def GoMap.get? {κ ν : Type} [DecidableEq κ] (m : GoMap κ ν) (k : κ) : Option ν :=
  match m with
  | [] => none
  | (k', v) :: t => if k' = k then some v else GoMap.get? t k

/-- The map write `m[k] = v`. -/
def GoMap.insert {κ ν : Type} [DecidableEq κ] (m : GoMap κ ν) (k : κ) (v : ν) : GoMap κ ν :=
  match m with
  | [] => [(k, v)]
  | (k', v') :: t => if k' = k then (k, v) :: t else (k', v') :: GoMap.insert t k v

/-- Go `len(m)`. -/
def GoMap.len {κ ν : Type} (m : GoMap κ ν) : Nat :=
  m.length

/-- Go `TarContentsRequest`, a `map[string]Reference`. -/
abbrev TarContentsRequest := GoMap String Reference

/-- Modelled from the spec: `internal.StringSet` (its file is not among the
sources) is a set of strings with `NewStringSet`, `Add` and `Contains`. -/
abbrev StringSet := List String

/-- The empty string set. -/
def NewStringSet : StringSet := []

/-- Adding a string to a set. -/
def StringSet.Add (s : StringSet) (x : String) : StringSet :=
  if x ∈ s then s else s ++ [x]

/-- Membership test of a string set. -/
def StringSet.Contains (s : StringSet) (x : String) : Bool :=
  decide (x ∈ s)

/-- The scanning loop of `ContentsFromTar` over the members still to be
returned by `tarReader.Next()`. -/
def ContentsFromTar.loop (tarHeaderNames : TarContentsRequest) (nextErr : Option String) :
    List TarEntry → GoMap Reference String → Except TarError (GoMap Reference String)
  | [], result =>
    match nextErr with
    | none => .ok result
    | some err => .error (.next err)
  | e :: es, result =>
    match tarHeaderNames.get? e.hdr.Name with
    | some fileRef =>
      match TarReader.ReadAll { cur := some e, rest := es, nextErr := nextErr } with
      | .error err => .error (.couldNotRead e.hdr.Name err)
      | .ok bytes => ContentsFromTar.loop tarHeaderNames nextErr es (result.insert fileRef bytes)
    | none => ContentsFromTar.loop tarHeaderNames nextErr es result

/-- The names listed by the error of `ContentsFromTar`: the loop
`for _, name := range result` adds the values of `result` to the set, and the
loop over the request keeps the keys the set does not contain. Maps are
ranged over in list order. -/
def ContentsFromTar.missingNames (result : GoMap Reference String)
    (tarHeaderNames : TarContentsRequest) : List String :=
  let resultSet := result.foldl (fun s kv => s.Add kv.2) NewStringSet
  tarHeaderNames.foldl
    (fun missingNames kv =>
      if ¬ resultSet.Contains kv.1 then missingNames ++ [kv.1] else missingNames) []

/-- Go `ContentsFromTar`. -/
def ContentsFromTar (reader : Archive) (tarHeaderNames : TarContentsRequest) :
    Except TarError (GoMap Reference String) :=
  match ContentsFromTar.loop tarHeaderNames reader.nextErr reader.entries [] with
  | .error err => .error err
  | .ok result =>
    if result.len ≠ tarHeaderNames.len then
      .error (.notAllFound (ContentsFromTar.missingNames result tarHeaderNames))
    else .ok result

/-- Go `file.Metadata` as built by the scanner. -/
structure Metadata where
  Path : String
  TarHeaderName : String
  TypeFlag : Char
  Linkname : String
  Size : Int
  Mode : Nat
  UserID : Int
  GroupID : Int
  IsDir : Bool
  deriving DecidableEq, Repr

/-- Calls of `log.Errorf` made by the scanner. -/
inductive LogEvent where
  | nextFailed (err : String)
  | xGlobalHeader (name : String)
  | xHeader (name : String)
  deriving DecidableEq, Repr

/-- What the goroutine of `EnumerateFileMetadataFromTar` has done when it
ends, a consumer receiving every value: the records sent on the channel in
order, whether `close(result)` was executed, and the errors logged. -/
structure ScanResult where
  sent : List Metadata
  closed : Bool
  logged : List LogEvent
  deriving DecidableEq, Repr

/-- The record the scanner builds from a header and its cleaned name. -/
def Metadata.ofHeader (name : String) (header : Header) : Metadata :=
  { Path := name
    TarHeaderName := header.Name
    TypeFlag := header.Typeflag
    Linkname := header.Linkname
    Size := header.Size
    Mode := header.Mode
    UserID := header.Uid
    GroupID := header.Gid
    IsDir := header.IsDir }

/-- The goroutine body of `EnumerateFileMetadataFromTar` over the members
still to be returned by `tarReader.Next()`, with the records sent and the
errors logged so far. -/
def EnumerateFileMetadataFromTar.loop (nextErr : Option String) :
    List TarEntry → List Metadata → List LogEvent → ScanResult
  | [], sent, logged =>
    match nextErr with
    | none => { sent := sent, closed := true, logged := logged }
    | some err => { sent := sent, closed := false, logged := logged ++ [.nextFailed err] }
  | e :: es, sent, logged =>
    let header := e.hdr
    -- always ensure relative path notations are not parsed as part of the filename
    let name := Clean (DirSeparator ++ header.Name)
    if name = "." then
      EnumerateFileMetadataFromTar.loop nextErr es sent logged
    else if header.Typeflag = TypeXGlobalHeader then
      EnumerateFileMetadataFromTar.loop nextErr es sent (logged ++ [.xGlobalHeader name])
    else if header.Typeflag = TypeXHeader then
      EnumerateFileMetadataFromTar.loop nextErr es sent (logged ++ [.xHeader name])
    else
      EnumerateFileMetadataFromTar.loop nextErr es
        (sent ++ [Metadata.ofHeader name header]) logged

/-- Go `EnumerateFileMetadataFromTar`. -/
def EnumerateFileMetadataFromTar (reader : Archive) : ScanResult :=
  EnumerateFileMetadataFromTar.loop reader.nextErr reader.entries [] []

/-! ## client.go: the scratch-directory tracker -/

/-- Go `multierror.Append(err, e)` for a plain error `e`: a nil `err` becomes
a combined error holding `e`, otherwise `e` is added at the end. -/
def multierrorAppend (allErrors : Option (List String)) (err : String) : Option (List String) :=
  match allErrors with
  | none => some [err]
  | some errs => some (errs ++ [err])

/-- Go `tracker`: the scratch directories created so far, in creation order. -/
structure tracker where
  tempDir : List String
  deriving DecidableEq, Repr

/-- What `tracker.cleanup` has done when it returns: the directories
`os.RemoveAll` was called on, in call order, and the returned error (`none`
is nil, `some errs` a combined error holding `errs`). -/
structure CleanupResult where
  attempted : List String
  err : Option (List String)
  deriving DecidableEq, Repr

/-- The loop of `tracker.cleanup` over the directories still to be visited.
`RemoveAll dir` is the outcome of `os.RemoveAll(dir)`: `none` for success. -/
def tracker.cleanup.loop (RemoveAll : String → Option String) :
    List String → List String → Option (List String) → CleanupResult
  | [], attempted, allErrors => { attempted := attempted, err := allErrors }
  | dir :: dirs, attempted, allErrors =>
    match RemoveAll dir with
    | some err =>
      tracker.cleanup.loop RemoveAll dirs (attempted ++ [dir]) (multierrorAppend allErrors err)
    | none => tracker.cleanup.loop RemoveAll dirs (attempted ++ [dir]) allErrors

/-- Go `(*tracker).cleanup`. -/
def tracker.cleanup (t : tracker) (RemoveAll : String → Option String) : CleanupResult :=
  tracker.cleanup.loop RemoveAll t.tempDir [] none

/-! ## Sample archives -/

/-- A header of the given name and type flag, with mode `0644` and no owner. -/
def sampleHeader (name : String) (flag : Char) : Header :=
  { Name := name, Typeflag := flag, Linkname := "", Uid := 0, Gid := 0, Size := 0,
    Mode := 420, IsDir := false }

/-- An intact regular file member of the given name and content. -/
def sampleFile (name body : String) : TarEntry :=
  { hdr := sampleHeader name '0', body := body, bodyErr := none }

/-- The archive with the members `x`, `y` and `z`. -/
def archiveXYZ : Archive :=
  { entries := [sampleFile "x" "body of x", sampleFile "y" "body of y",
      sampleFile "z" "body of z"],
    nextErr := none }

/-! ## Properties of the reference registry -/

theorem wrapInt_add_wrapInt (bits : Nat) (x k : Int) :
    wrapInt bits (wrapInt bits x + k) = wrapInt bits (x + k) := by
  unfold wrapInt
  have h : (x + 2 ^ (bits - 1)) % 2 ^ bits - 2 ^ (bits - 1) + k + 2 ^ (bits - 1) =
      (x + 2 ^ (bits - 1)) % 2 ^ bits + k := by ring
  rw [h, Int.emod_add_emod]
  congr 2
  ring

theorem mintAll_counter (bits : Nat) (s : Int) (ps : List Path) :
    (mintAll bits s ps).1 = wrapInt bits (s + ps.length) ∨ ps = [] := by
  induction ps generalizing s with
  | nil => right; rfl
  | cons p ps ih =>
    left
    rcases ih (wrapInt bits (s + 1)) with h | h
    · simp only [mintAll, NewFileReference, h, List.length_cons]
      rw [wrapInt_add_wrapInt]
      push_cast
      congr 1
      ring
    · subst h
      simp [mintAll, NewFileReference]

theorem mintAll_paths (bits : Nat) (s : Int) (ps : List Path) :
    (mintAll bits s ps).2.map (fun r => r.Path) = ps := by
  induction ps generalizing s with
  | nil => rfl
  | cons p ps ih => simp [mintAll, NewFileReference, ih]

theorem mintAll_ids (bits : Nat) (s : Int) (ps : List Path) :
    (mintAll bits s ps).2.map (fun r => r.id) =
      (List.range ps.length).map (fun (k : Nat) => toID (wrapInt bits (s + 1 + (k : Int)))) := by
  induction ps generalizing s with
  | nil => rfl
  | cons p ps ih =>
    simp only [mintAll, NewFileReference, List.map_cons, List.length_cons]
    rw [ih, List.range_succ_eq_map, List.map_cons, List.map_map]
    congr 1
    · simp
    · apply List.map_congr_left
      intro k _
      simp only [Function.comp]
      rw [add_assoc (wrapInt bits (s + 1)), wrapInt_add_wrapInt]
      push_cast
      congr 2
      ring

theorem toID_cast (x : Int) : ((toID x : Nat) : Int) = x % 18446744073709551616 := by
  unfold toID
  exact Int.toNat_of_nonneg (Int.emod_nonneg _ (by decide))

theorem counterReading_cast (bits : Nat) (x : Int) :
    ((counterReading bits x : Nat) : Int) = x % 2 ^ bits := by
  unfold counterReading
  exact Int.toNat_of_nonneg (Int.emod_nonneg _ (by positivity))

theorem wrapInt_32 (x : Int) : wrapInt 32 x = (x + 2147483648) % 4294967296 - 2147483648 := by
  unfold wrapInt
  norm_num

theorem wrapInt_64 (x : Int) :
    wrapInt 64 x = (x + 9223372036854775808) % 18446744073709551616 - 9223372036854775808 := by
  unfold wrapInt
  norm_num

theorem toID_wrapInt_lt_iff (bits : Nat) (hbits : bits = 32 ∨ bits = 64) (x y : Int) :
    toID (wrapInt bits x) < toID (wrapInt bits y) ↔ x % 2 ^ bits < y % 2 ^ bits := by
  have hx := toID_cast (wrapInt bits x)
  have hy := toID_cast (wrapInt bits y)
  generalize toID (wrapInt bits x) = a at hx ⊢
  generalize toID (wrapInt bits y) = b at hy ⊢
  rcases hbits with rfl | rfl
  · rw [wrapInt_32] at hx hy
    norm_num
    omega
  · rw [wrapInt_64] at hx hy
    norm_num
    omega

theorem toID_wrapInt_eq_iff (bits : Nat) (hbits : bits = 32 ∨ bits = 64) (x y : Int) :
    toID (wrapInt bits x) = toID (wrapInt bits y) ↔ x % 2 ^ bits = y % 2 ^ bits := by
  have h1 := toID_wrapInt_lt_iff bits hbits x y
  have h2 := toID_wrapInt_lt_iff bits hbits y x
  omega

theorem pairwise_map_range (R : Nat → Nat → Prop) (f : Nat → Nat) (N : Nat) :
    List.Pairwise R ((List.range N).map f) ↔ ∀ i j, i < j → j < N → R (f i) (f j) := by
  rw [List.pairwise_iff_getElem]
  constructor
  · intro h i j hij hj
    have := h i j (by simp; omega) (by simpa using hj) hij
    simpa using this
  · intro h i j hi hj hij
    simp only [List.length_map, List.length_range] at hi hj
    simpa using h i j hij hj

theorem mintAll_ids_increasing_iff (bits : Nat) (hbits : bits = 32 ∨ bits = 64) (s : Int)
    (ps : List Path) :
    List.Pairwise (fun a b => a < b) ((mintAll bits s ps).2.map (fun r => r.id)) ↔
      counterReading bits (s + 1) + ps.length ≤ 2 ^ bits := by
  rw [mintAll_ids, pairwise_map_range]
  have hv := counterReading_cast bits (s + 1)
  generalize counterReading bits (s + 1) = v at hv ⊢
  generalize ps.length = N
  simp only [toID_wrapInt_lt_iff bits hbits]
  rcases hbits with rfl | rfl
  · norm_num at hv ⊢
    constructor
    · intro h
      by_contra hlt
      have := h (4294967295 - v) (4294967295 - v + 1) (by omega) (by omega)
      omega
    · intro h i j hij hj
      omega
  · norm_num at hv ⊢
    constructor
    · intro h
      by_contra hlt
      have := h (18446744073709551615 - v) (18446744073709551615 - v + 1) (by omega) (by omega)
      omega
    · intro h i j hij hj
      omega

theorem mintAll_ids_nodup_iff (bits : Nat) (hbits : bits = 32 ∨ bits = 64) (s : Int)
    (ps : List Path) :
    ((mintAll bits s ps).2.map (fun r => r.id)).Nodup ↔ ps.length ≤ 2 ^ bits := by
  unfold List.Nodup
  rw [mintAll_ids, pairwise_map_range]
  generalize ps.length = N
  simp only [ne_eq, toID_wrapInt_eq_iff bits hbits]
  rcases hbits with rfl | rfl
  · norm_num
    constructor
    · intro h
      by_contra hlt
      have := h 0 4294967296 (by omega) (by omega)
      omega
    · intro h i j hij hj
      omega
  · norm_num
    constructor
    · intro h
      by_contra hlt
      have := h 0 18446744073709551616 (by omega) (by omega)
      omega
    · intro h i j hij hj
      omega

/-- C1, as stated, fails where the counter steps from `-1` to `0`: on a target
with a 32-bit `int` the state `-2` is reached after `2 ^ 32 - 2` mints, on one
with a 64-bit `int` after `2 ^ 64 - 2` mints, and on both the next two ids
are `2 ^ 64 - 1` and `0`, which is not increasing. -/
theorem mint_ids_wrap_around :
    (ReachableCounter 32 (-2) ∧
      (mintAll 32 (-2) ["a", "a"]).2.map (fun r => r.id) = [18446744073709551615, 0]) ∧
    (ReachableCounter 64 (-2) ∧
      (mintAll 64 (-2) ["a", "a"]).2.map (fun r => r.id) = [18446744073709551615, 0]) ∧
    ¬ List.Pairwise (fun a b => a < b) ([18446744073709551615, 0] : List Nat) := by
  refine ⟨⟨⟨List.replicate 4294967294 "", ?_⟩, by decide⟩,
    ⟨⟨List.replicate 18446744073709551614 "", ?_⟩, by decide⟩, by decide⟩
  · rcases mintAll_counter 32 0 (List.replicate 4294967294 "") with h | h
    · rw [h, List.length_replicate]
      decide
    · have := congrArg List.length h
      rw [List.length_replicate] at this
      exact absurd this (by decide)
  · rcases mintAll_counter 64 0 (List.replicate 18446744073709551614 "") with h | h
    · rw [h, List.length_replicate]
      decide
    · have := congrArg List.length h
      rw [List.length_replicate] at this
      exact absurd this (by decide)

theorem counterReading_one (bits : Nat) (hbits : bits = 32 ∨ bits = 64) :
    counterReading bits (0 + 1) = 1 := by
  rcases hbits with rfl | rfl <;> decide

/-- C1 (amended): on a target whose `int` is 32 or 64 bits wide, for calls of
`NewFileReference` made one after the other from any counter state, every
reference carries the path it was given, the id of call `k` (from `0`) is
`ID` of the wrapped counter `nextID + 1 + k`, the ids are pairwise distinct
exactly when there are at most `2 ^ bits` calls, and they are strictly
increasing in call order exactly when the counter, read as an unsigned number
after the first call, plus the number of calls is at most `2 ^ bits`, that is
when no call steps the counter from `-1` to `0`. In a fresh process the ids of
fewer than `2 ^ bits` calls are strictly increasing and pairwise distinct. -/
theorem mint_ids_distinct_and_increasing (bits : Nat) (hbits : bits = 32 ∨ bits = 64)
    (s : Int) (ps : List Path) :
    (mintAll bits s ps).2.map (fun r => r.Path) = ps ∧
    (mintAll bits s ps).2.map (fun r => r.id) =
      (List.range ps.length).map (fun (k : Nat) => toID (wrapInt bits (s + 1 + (k : Int)))) ∧
    (((mintAll bits s ps).2.map (fun r => r.id)).Nodup ↔ ps.length ≤ 2 ^ bits) ∧
    (List.Pairwise (fun a b => a < b) ((mintAll bits s ps).2.map (fun r => r.id)) ↔
      counterReading bits (s + 1) + ps.length ≤ 2 ^ bits) ∧
    (ps.length < 2 ^ bits →
      List.Pairwise (fun a b => a < b) ((mintAll bits 0 ps).2.map (fun r => r.id)) ∧
      ((mintAll bits 0 ps).2.map (fun r => r.id)).Nodup) := by
  refine ⟨mintAll_paths bits s ps, mintAll_ids bits s ps, mintAll_ids_nodup_iff bits hbits s ps,
    mintAll_ids_increasing_iff bits hbits s ps, ?_⟩
  intro hlen
  refine ⟨(mintAll_ids_increasing_iff bits hbits 0 ps).2 ?_,
    (mintAll_ids_nodup_iff bits hbits 0 ps).2 (le_of_lt hlen)⟩
  rw [counterReading_one bits hbits]
  omega

/-- C1 (amended) for three mints in a fresh process on a 64-bit target, two
of them of the same path and one of the empty path: the ids are `1, 2, 3`. -/
theorem mint_ids_distinct_and_increasing_witness :
    ((64 : Nat) = 32 ∨ (64 : Nat) = 64) ∧
    (mintAll 64 0 ["", "a", "a"]).2.map (fun r => r.id) = [1, 2, 3] ∧
    ((mintAll 64 0 ["", "a", "a"]).2.map (fun r => r.Path) = ["", "a", "a"] ∧
    (mintAll 64 0 ["", "a", "a"]).2.map (fun r => r.id) =
      (List.range ["", "a", "a"].length).map
        (fun (k : Nat) => toID (wrapInt 64 (0 + 1 + (k : Int)))) ∧
    (((mintAll 64 0 ["", "a", "a"]).2.map (fun r => r.id)).Nodup ↔
      ["", "a", "a"].length ≤ 2 ^ 64) ∧
    (List.Pairwise (fun a b => a < b) ((mintAll 64 0 ["", "a", "a"]).2.map (fun r => r.id)) ↔
      counterReading 64 (0 + 1) + ["", "a", "a"].length ≤ 2 ^ 64) ∧
    (["", "a", "a"].length < 2 ^ 64 →
      List.Pairwise (fun a b => a < b) ((mintAll 64 0 ["", "a", "a"]).2.map (fun r => r.id)) ∧
      ((mintAll 64 0 ["", "a", "a"]).2.map (fun r => r.id)).Nodup)) :=
  ⟨by decide, by decide, mint_ids_distinct_and_increasing 64 (by decide) 0 ["", "a", "a"]⟩

/-! ## Properties of the scratch-directory tracker -/

theorem cleanup_loop_attempted (R : String → Option String) (dirs att : List String)
    (errs : Option (List String)) :
    (tracker.cleanup.loop R dirs att errs).attempted = att ++ dirs := by
  induction dirs generalizing att errs with
  | nil => simp [tracker.cleanup.loop]
  | cons d ds ih =>
    unfold tracker.cleanup.loop
    cases R d <;> simp [ih]

theorem cleanup_loop_err (R : String → Option String) (dirs att : List String)
    (errs : Option (List String)) :
    (tracker.cleanup.loop R dirs att errs).err =
      if dirs.filterMap R = [] then errs else some (errs.getD [] ++ dirs.filterMap R) := by
  induction dirs generalizing att errs with
  | nil => simp [tracker.cleanup.loop]
  | cons d ds ih =>
    unfold tracker.cleanup.loop
    cases hd : R d with
    | none => simp [ih, List.filterMap_cons, hd]
    | some e =>
      simp only [ih, List.filterMap_cons, hd]
      cases errs <;> by_cases h : List.filterMap R ds = [] <;> simp [multierrorAppend, h]

/-- C9: `tracker.cleanup` calls `os.RemoveAll` on every tracked directory
once, in list order, whatever the outcomes; it returns nil exactly when every
removal succeeded, and otherwise one combined error holding the errors of the
failed removals, in order. -/
theorem cleanup_attempts_all_and_combines (RemoveAll : String → Option String)
    (t : tracker) :
    (t.cleanup RemoveAll).attempted = t.tempDir ∧
    ((t.cleanup RemoveAll).err = none ↔ ∀ dir ∈ t.tempDir, RemoveAll dir = none) ∧
    ((¬ ∀ dir ∈ t.tempDir, RemoveAll dir = none) →
      (t.cleanup RemoveAll).err = some (t.tempDir.filterMap RemoveAll)) := by
  have hnil : t.tempDir.filterMap RemoveAll = [] ↔ ∀ dir ∈ t.tempDir, RemoveAll dir = none := by
    simp [List.filterMap_eq_nil_iff]
  refine ⟨by simp [tracker.cleanup, cleanup_loop_attempted], ?_, ?_⟩
  · rw [tracker.cleanup, cleanup_loop_err, ← hnil]
    by_cases h : t.tempDir.filterMap RemoveAll = [] <;> simp [h]
  · intro h
    rw [← hnil] at h
    rw [tracker.cleanup, cleanup_loop_err]
    simp [h]

/-- The tracker of three directories of which the middle one cannot be
removed: all three removals are attempted and the combined error holds the
one failure. -/
theorem cleanup_middle_failure :
    (tracker.cleanup { tempDir := ["/tmp/a", "/tmp/b", "/tmp/c"] }
        (fun dir => if dir = "/tmp/b" then some "permission denied" else none)) =
      { attempted := ["/tmp/a", "/tmp/b", "/tmp/c"], err := some ["permission denied"] } := by
  decide

/-! ## Properties of `ReaderFromTar` -/

theorem ReaderFromTar_loop_find (reader : ReadCloser) (tarPath : String) (es : List TarEntry) :
    ReaderFromTar.loop reader tarPath none es =
      match es.find? (fun e => decide (e.hdr.Name = tarPath)) with
      | none => .error (.notFound tarPath)
      | some e =>
        .ok { Reader := { cur := some e,
                          rest := (es.dropWhile (fun e => ¬ decide (e.hdr.Name = tarPath))).tail,
                          nextErr := none },
              Closer := reader } := by
  induction es with
  | nil => rfl
  | cons e es ih =>
    by_cases h : e.hdr.Name = tarPath
    · simp [ReaderFromTar.loop, h, List.find?_cons, List.dropWhile_cons]
    · simp [ReaderFromTar.loop, h, List.find?_cons, List.dropWhile_cons, ih]

/-- C3: on a well-formed archive `ReaderFromTar` fails with the not-found
error exactly when no member is named `tarPath`; otherwise it succeeds with a
stream whose content is the body of the first member of that name, and
closing that stream closes the input stream. -/
theorem ReaderFromTar_found_iff (reader : ReadCloser) (tarPath : String)
    (hwf : reader.archive.WellFormed) :
    (ReaderFromTar reader tarPath = .error (.notFound tarPath) ↔
      ∀ e ∈ reader.archive.entries, e.hdr.Name ≠ tarPath) ∧
    ((∃ e ∈ reader.archive.entries, e.hdr.Name = tarPath) →
      ∃ f e, ReaderFromTar reader tarPath = .ok f ∧
        reader.archive.entries.find? (fun e => decide (e.hdr.Name = tarPath)) = some e ∧
        f.Reader.ReadAll = .ok e.body ∧
        ∀ closed, f.Close closed = reader.Close closed) := by
  obtain ⟨hnext, hbody⟩ := hwf
  have hloop := ReaderFromTar_loop_find reader tarPath reader.archive.entries
  unfold ReaderFromTar
  rw [hnext, hloop]
  constructor
  · cases hf : reader.archive.entries.find? (fun e => decide (e.hdr.Name = tarPath)) with
    | none =>
      simp only [true_iff]
      intro e he heq
      have := List.find?_eq_none.mp hf e he
      simp [heq] at this
    | some e =>
      simp only [false_iff, reduceCtorEq]
      intro hall
      have hmem := List.mem_of_find?_eq_some hf
      have hp := List.find?_some hf
      simp at hp
      exact hall e hmem hp
  · rintro ⟨e0, he0, hname⟩
    cases hf : reader.archive.entries.find? (fun e => decide (e.hdr.Name = tarPath)) with
    | none =>
      have := List.find?_eq_none.mp hf e0 he0
      simp [hname] at this
    | some e =>
      refine ⟨_, e, rfl, rfl, ?_, fun _ => rfl⟩
      have hmem := List.mem_of_find?_eq_some hf
      simp [TarReader.ReadAll, hbody e hmem]

/-- C3 at the archive `x, y, z`, asking for `y`. -/
theorem ReaderFromTar_found_iff_witness :
    archiveXYZ.WellFormed ∧
    (ReaderFromTar ⟨3, archiveXYZ⟩ "y" = .error (.notFound "y") ↔
      ∀ e ∈ (⟨3, archiveXYZ⟩ : ReadCloser).archive.entries, e.hdr.Name ≠ "y") ∧
    ((∃ e ∈ (⟨3, archiveXYZ⟩ : ReadCloser).archive.entries, e.hdr.Name = "y") →
      ∃ f e, ReaderFromTar ⟨3, archiveXYZ⟩ "y" = .ok f ∧
        (⟨3, archiveXYZ⟩ : ReadCloser).archive.entries.find?
          (fun e => decide (e.hdr.Name = "y")) = some e ∧
        f.Reader.ReadAll = .ok e.body ∧
        ∀ closed, f.Close closed = (⟨3, archiveXYZ⟩ : ReadCloser).Close closed) :=
  ⟨⟨rfl, by decide⟩, ReaderFromTar_found_iff ⟨3, archiveXYZ⟩ "y" ⟨rfl, by decide⟩⟩

/-! ## Properties of Go maps as association lists -/

theorem GoMap.mem_keys_insert {κ ν : Type} [DecidableEq κ] (m : GoMap κ ν) (k : κ) (v : ν)
    (k' : κ) :
    k' ∈ (GoMap.insert m k v).map Prod.fst ↔ k' = k ∨ k' ∈ m.map Prod.fst := by
  induction m with
  | nil => simp [GoMap.insert]
  | cons kv t ih =>
    obtain ⟨k0, v0⟩ := kv
    unfold GoMap.insert
    by_cases h : k0 = k
    · subst h
      simp
    · simp only [h, if_false, List.map_cons, List.mem_cons, ih]
      tauto

theorem GoMap.nodup_keys_insert {κ ν : Type} [DecidableEq κ] (m : GoMap κ ν) (k : κ) (v : ν)
    (h : (m.map Prod.fst).Nodup) : ((GoMap.insert m k v).map Prod.fst).Nodup := by
  induction m with
  | nil => simp [GoMap.insert]
  | cons kv t ih =>
    obtain ⟨k0, v0⟩ := kv
    simp only [List.map_cons, List.nodup_cons] at h
    unfold GoMap.insert
    by_cases hk : k0 = k
    · subst hk
      simpa using h
    · simp only [hk, if_false, List.map_cons, List.nodup_cons]
      refine ⟨?_, ih h.2⟩
      intro hmem
      rcases (GoMap.mem_keys_insert t k v k0).mp hmem with h1 | h1
      · exact hk h1
      · exact h.1 h1

theorem GoMap.get?_insert {κ ν : Type} [DecidableEq κ] (m : GoMap κ ν) (k : κ) (v : ν)
    (k' : κ) :
    GoMap.get? (GoMap.insert m k v) k' = if k = k' then some v else GoMap.get? m k' := by
  induction m with
  | nil => simp [GoMap.insert, GoMap.get?]
  | cons kv t ih =>
    obtain ⟨k0, v0⟩ := kv
    unfold GoMap.insert
    by_cases h : k0 = k
    · subst h
      by_cases h2 : k0 = k' <;> simp [GoMap.get?, h2]
    · by_cases h2 : k0 = k'
      · subst h2
        have h3 : ¬ k = k0 := fun e => h e.symm
        simp [GoMap.get?, h, h3]
      · simp [GoMap.get?, h, h2, ih]

theorem GoMap.get?_eq_some_mem {κ ν : Type} [DecidableEq κ] (m : GoMap κ ν) (k : κ) (v : ν)
    (h : GoMap.get? m k = some v) : (k, v) ∈ m := by
  induction m with
  | nil => simp [GoMap.get?] at h
  | cons kv t ih =>
    obtain ⟨k0, v0⟩ := kv
    unfold GoMap.get? at h
    by_cases hk : k0 = k
    · simp only [hk, if_true, Option.some.injEq] at h
      simp [hk, h]
    · simp only [hk, if_false] at h
      exact List.mem_cons_of_mem _ (ih h)

theorem GoMap.get?_of_mem {κ ν : Type} [DecidableEq κ] (m : GoMap κ ν) (k : κ) (v : ν)
    (hnd : (m.map Prod.fst).Nodup) (h : (k, v) ∈ m) : GoMap.get? m k = some v := by
  induction m with
  | nil => simp at h
  | cons kv t ih =>
    obtain ⟨k0, v0⟩ := kv
    simp only [List.map_cons, List.nodup_cons] at hnd
    unfold GoMap.get?
    rcases List.mem_cons.mp h with h1 | h1
    · simp only [Prod.mk.injEq] at h1
      simp [h1.1, h1.2]
    · have hne : ¬ k0 = k := by
        intro e
        subst e
        exact hnd.1 (List.mem_map.mpr ⟨(k0, v), h1, rfl⟩)
      simp only [hne, if_false]
      exact ih hnd.2 h1

theorem GoMap.get?_isSome_of_mem_keys {κ ν : Type} [DecidableEq κ] (m : GoMap κ ν) (k : κ)
    (h : k ∈ m.map Prod.fst) : ∃ v, GoMap.get? m k = some v := by
  induction m with
  | nil => simp at h
  | cons kv t ih =>
    obtain ⟨k0, v0⟩ := kv
    unfold GoMap.get?
    by_cases hk : k0 = k
    · exact ⟨v0, by simp [hk]⟩
    · simp only [hk, if_false]
      apply ih
      rcases List.mem_cons.mp h with h1 | h1
      · exact absurd h1.symm hk
      · exact h1

/-! ## Properties of `ContentsFromTar` -/

theorem ContentsFromTar_loop_ok (req : TarContentsRequest) (es : List TarEntry)
    (result : GoMap Reference String)
    (hbody : ∀ e ∈ es, e.bodyErr = none) (hnd : (result.map Prod.fst).Nodup) :
    ∃ res, ContentsFromTar.loop req none es result = .ok res ∧
      (res.map Prod.fst).Nodup ∧
      (∀ r, r ∈ res.map Prod.fst ↔
        r ∈ result.map Prod.fst ∨ ∃ e ∈ es, GoMap.get? req e.hdr.Name = some r) ∧
      (∀ r body, GoMap.get? res r = some body →
        GoMap.get? result r = some body ∨
          ∃ e ∈ es, GoMap.get? req e.hdr.Name = some r ∧ e.body = body) := by
  induction es generalizing result with
  | nil => exact ⟨result, rfl, hnd, by simp, by simp⟩
  | cons e es ih =>
    have hb : e.bodyErr = none := hbody e (List.mem_cons_self _ _)
    have hbs : ∀ e' ∈ es, e'.bodyErr = none := fun e' h => hbody e' (List.mem_cons_of_mem _ h)
    unfold ContentsFromTar.loop
    cases hget : GoMap.get? req e.hdr.Name with
    | none =>
      obtain ⟨res, h1, h2, h3, h4⟩ := ih result hbs hnd
      refine ⟨res, h1, h2, ?_, ?_⟩
      · intro r
        rw [h3 r]
        simp [hget]
      · intro r body hr
        rcases h4 r body hr with h | ⟨e', he', h⟩
        · exact Or.inl h
        · exact Or.inr ⟨e', List.mem_cons_of_mem _ he', h⟩
    | some fileRef =>
      simp only [TarReader.ReadAll, hb]
      obtain ⟨res, h1, h2, h3, h4⟩ :=
        ih (GoMap.insert result fileRef e.body) hbs (GoMap.nodup_keys_insert _ _ _ hnd)
      refine ⟨res, h1, h2, ?_, ?_⟩
      · intro r
        rw [h3 r, GoMap.mem_keys_insert]
        simp only [List.mem_cons, exists_eq_or_imp, hget, Option.some.injEq]
        constructor
        · rintro ((h | h) | h)
          · exact Or.inr (Or.inl h.symm)
          · exact Or.inl h
          · exact Or.inr (Or.inr h)
        · rintro (h | h | h)
          · exact Or.inl (Or.inr h)
          · exact Or.inl (Or.inl h.symm)
          · exact Or.inr h
      · intro r body hr
        rcases h4 r body hr with h | ⟨e', he', h⟩
        · rw [GoMap.get?_insert] at h
          by_cases hk : fileRef = r
          · simp only [hk, if_true, Option.some.injEq] at h
            exact Or.inr ⟨e, List.mem_cons_self _ _, by rw [hget, hk], h⟩
          · simp only [hk, if_false] at h
            exact Or.inl h
        · exact Or.inr ⟨e', List.mem_cons_of_mem _ he', h⟩

theorem ContentsFromTar_loop_keys (reader : Archive) (req : TarContentsRequest)
    (hwf : reader.WellFormed) (hkeys : (req.map Prod.fst).Nodup)
    (hocc : ∀ kv ∈ req, ∃ e ∈ reader.entries, e.hdr.Name = kv.1) :
    ∃ res, ContentsFromTar.loop req reader.nextErr reader.entries [] = .ok res ∧
      (res.map Prod.fst).Nodup ∧
      (∀ r, r ∈ res.map Prod.fst ↔ r ∈ req.map Prod.snd) ∧
      (∀ r body, GoMap.get? res r = some body →
        ∃ e ∈ reader.entries, (e.hdr.Name, r) ∈ req ∧ e.body = body) := by
  obtain ⟨hnext, hbody⟩ := hwf
  obtain ⟨res, h1, h2, h3, h4⟩ :=
    ContentsFromTar_loop_ok req reader.entries [] hbody (by simp)
  rw [hnext]
  refine ⟨res, h1, h2, ?_, ?_⟩
  · intro r
    rw [h3 r]
    simp only [List.map_nil, List.not_mem_nil, false_or]
    constructor
    · rintro ⟨e, _, hget⟩
      exact List.mem_map.mpr ⟨(e.hdr.Name, r), GoMap.get?_eq_some_mem _ _ _ hget, rfl⟩
    · intro hr
      obtain ⟨⟨name, r'⟩, hmem, hr'⟩ := List.mem_map.mp hr
      simp only at hr'
      subst hr'
      obtain ⟨e, he, hname⟩ := hocc _ hmem
      simp only at hname
      exact ⟨e, he, by rw [hname]; exact GoMap.get?_of_mem _ _ _ hkeys hmem⟩
  · intro r body hr
    rcases h4 r body hr with h | ⟨e, he, hget, hb⟩
    · simp [GoMap.get?] at h
    · exact ⟨e, he, GoMap.get?_eq_some_mem _ _ _ hget, hb⟩

/-- C2: on a well-formed archive with distinct member names, a request whose
keys all name members and whose references are pairwise distinct makes
`ContentsFromTar` succeed; the keys of the returned map are exactly the
requested references, one result per request entry, and each reference is
mapped to the whole body of the member named by its request key. -/
theorem ContentsFromTar_complete (reader : Archive) (req : TarContentsRequest)
    (hwf : reader.WellFormed)
    (hnames : (reader.entries.map (fun e => e.hdr.Name)).Nodup)
    (hkeys : (req.map Prod.fst).Nodup)
    (hocc : ∀ kv ∈ req, ∃ e ∈ reader.entries, e.hdr.Name = kv.1)
    (hrefs : (req.map Prod.snd).Nodup) :
    ∃ result, ContentsFromTar reader req = .ok result ∧
      (∀ r, r ∈ result.map Prod.fst ↔ r ∈ req.map Prod.snd) ∧
      (result.map Prod.fst).Nodup ∧
      result.len = req.len ∧
      (∀ name ref e, (name, ref) ∈ req → e ∈ reader.entries → e.hdr.Name = name →
        GoMap.get? result ref = some e.body) := by
  obtain ⟨res, h1, h2, h3, h4⟩ := ContentsFromTar_loop_keys reader req hwf hkeys hocc
  have hlen : res.len = req.len := by
    have hperm := (List.perm_ext_iff_of_nodup h2 hrefs).2 h3
    have := hperm.length_eq
    simpa [GoMap.len] using this
  refine ⟨res, ?_, h3, h2, hlen, ?_⟩
  · simp [ContentsFromTar, h1, hlen]
  · intro name ref e hmem he hname
    have hk : ref ∈ res.map Prod.fst :=
      (h3 ref).2 (List.mem_map.mpr ⟨(name, ref), hmem, rfl⟩)
    obtain ⟨body, hbody⟩ := GoMap.get?_isSome_of_mem_keys res ref hk
    obtain ⟨e', he', hmem', hb⟩ := h4 ref body hbody
    -- the references of the request are distinct, so `e'` is named `name`
    have hname' : e'.hdr.Name = name := by
      have hinj := List.inj_on_of_nodup_map hrefs hmem' hmem rfl
      exact (Prod.mk.injEq _ _ _ _ ▸ hinj).1
    -- member names are distinct, so `e'` is `e`
    have hee : e' = e :=
      List.inj_on_of_nodup_map hnames he' he (by simp [hname, hname'])
    rw [hbody, ← hb, hee]

/-- C2 at the archive `x, y, z` with the request naming `x` and `z`. -/
theorem ContentsFromTar_complete_witness :
    archiveXYZ.WellFormed ∧
    ∃ result, ContentsFromTar archiveXYZ [("x", ⟨1, "/x"⟩), ("z", ⟨2, "/z"⟩)] = .ok result ∧
      (∀ r, r ∈ result.map Prod.fst ↔
        r ∈ ([("x", ⟨1, "/x"⟩), ("z", ⟨2, "/z"⟩)] : TarContentsRequest).map Prod.snd) ∧
      (result.map Prod.fst).Nodup ∧
      result.len = GoMap.len ([("x", ⟨1, "/x"⟩), ("z", ⟨2, "/z"⟩)] : TarContentsRequest) ∧
      (∀ name ref e, (name, ref) ∈ ([("x", ⟨1, "/x"⟩), ("z", ⟨2, "/z"⟩)] : TarContentsRequest) →
        e ∈ archiveXYZ.entries → e.hdr.Name = name → GoMap.get? result ref = some e.body) :=
  ⟨⟨rfl, by decide⟩,
    ContentsFromTar_complete archiveXYZ [("x", ⟨1, "/x"⟩), ("z", ⟨2, "/z"⟩)]
      ⟨rfl, by decide⟩ (by decide) (by decide) (by decide) (by decide)⟩

/-- C8, as stated, fails: with both requested names present but mapped to the
same reference, `ContentsFromTar` returns the not-all-found error. -/
theorem ContentsFromTar_shared_reference_fails :
    archiveXYZ.WellFormed ∧
    (∀ kv ∈ ([("x", ⟨1, "/f"⟩), ("y", ⟨1, "/f"⟩)] : TarContentsRequest),
      ∃ e ∈ archiveXYZ.entries, e.hdr.Name = kv.1) ∧
    ContentsFromTar archiveXYZ [("x", ⟨1, "/f"⟩), ("y", ⟨1, "/f"⟩)] =
      .error (.notAllFound ["x", "y"]) :=
  ⟨⟨rfl, by decide⟩, by decide, rfl⟩

/-- C8 (amended): on a well-formed archive, with a request whose keys all
name members, `ContentsFromTar` succeeds exactly when the references of the
request are pairwise distinct; when they are not, it returns the
not-all-found error. -/
theorem ContentsFromTar_succeeds_iff_refs_distinct (reader : Archive)
    (req : TarContentsRequest) (hwf : reader.WellFormed)
    (hkeys : (req.map Prod.fst).Nodup)
    (hocc : ∀ kv ∈ req, ∃ e ∈ reader.entries, e.hdr.Name = kv.1) :
    ((∃ result, ContentsFromTar reader req = .ok result) ↔ (req.map Prod.snd).Nodup) ∧
    (¬ (req.map Prod.snd).Nodup →
      ∃ missingNames, ContentsFromTar reader req = .error (.notAllFound missingNames)) := by
  obtain ⟨res, h1, h2, h3, _⟩ := ContentsFromTar_loop_keys reader req hwf hkeys hocc
  have hcard : res.len = (req.map Prod.snd).toFinset.card := by
    have hfin : (res.map Prod.fst).toFinset = (req.map Prod.snd).toFinset := by
      ext r
      simp only [List.mem_toFinset]
      exact h3 r
    rw [← hfin, List.toFinset_card_of_nodup h2]
    simp [GoMap.len]
  have hiff : (req.map Prod.snd).toFinset.card = (req.map Prod.snd).length ↔
      (req.map Prod.snd).Nodup :=
    Multiset.toFinset_card_eq_card_iff_nodup
  have hreq : req.len = (req.map Prod.snd).length := by simp [GoMap.len]
  have hlen_iff : res.len = req.len ↔ (req.map Prod.snd).Nodup := by
    rw [hcard, hreq]
    exact hiff
  have hmain : (∃ result, ContentsFromTar reader req = .ok result) ↔ res.len = req.len := by
    unfold ContentsFromTar
    rw [h1]
    by_cases hlen : res.len = req.len
    · simp [hlen]
    · simp [hlen]
  refine ⟨hmain.trans hlen_iff, ?_⟩
  intro hnd
  have hlen : ¬ res.len = req.len := fun h => hnd (hlen_iff.1 h)
  refine ⟨ContentsFromTar.missingNames res req, ?_⟩
  unfold ContentsFromTar
  rw [h1]
  simp [hlen]

/-- C8 (amended) at the archive `x, y, z` with the request naming `x` and `y`
by two different references. -/
theorem ContentsFromTar_succeeds_iff_refs_distinct_witness :
    archiveXYZ.WellFormed ∧
    (((∃ result, ContentsFromTar archiveXYZ [("x", ⟨1, "/f"⟩), ("y", ⟨2, "/f"⟩)] = .ok result) ↔
      (([("x", ⟨1, "/f"⟩), ("y", ⟨2, "/f"⟩)] : TarContentsRequest).map Prod.snd).Nodup) ∧
    (¬ (([("x", ⟨1, "/f"⟩), ("y", ⟨2, "/f"⟩)] : TarContentsRequest).map Prod.snd).Nodup →
      ∃ missingNames, ContentsFromTar archiveXYZ [("x", ⟨1, "/f"⟩), ("y", ⟨2, "/f"⟩)] =
        .error (.notAllFound missingNames))) :=
  ⟨⟨rfl, by decide⟩,
    ContentsFromTar_succeeds_iff_refs_distinct archiveXYZ [("x", ⟨1, "/f"⟩), ("y", ⟨2, "/f"⟩)]
      ⟨rfl, by decide⟩ (by decide) (by decide)⟩

/-- C7: requesting `x` and `missing` from the archive `x, y, z`, the error of
`ContentsFromTar` lists `x`, which was found, next to `missing`: the set the
request is checked against holds the contents read, not the names found. -/
theorem ContentsFromTar_missing_names_list_found_name :
    ContentsFromTar archiveXYZ [("x", ⟨1, "/x"⟩), ("missing", ⟨2, "/missing"⟩)] =
      .error (.notAllFound ["x", "missing"]) :=
  rfl

/-! ## Properties of `path.Clean` on rooted paths -/

theorem joinSegments_append (xs ys : List (List Char)) :
    joinSegments (xs ++ ys) = joinSegments xs ++ joinSegments ys := by
  induction xs with
  | nil => rfl
  | cons x xs ih => simp [joinSegments, ih]

theorem rootedPath_concat (init : List (List Char)) (last : List Char) :
    rootedPath (init ++ [last]) = joinSegments init ++ '/' :: last := by
  simp [rootedPath, joinSegments_append, joinSegments]

theorem rootedPath_length_pos (segs : List (List Char)) : 1 ≤ (rootedPath segs).length := by
  unfold rootedPath
  cases segs with
  | nil => simp
  | cons a t => simp [joinSegments]

theorem lazybuf_string_length (out : lazybuf) (h : out.w ≤ out.buf.length) :
    out.string.length = out.w := by
  simp [lazybuf.string, h]

theorem lazybuf_append_string (out : lazybuf) (c : Char) (h : out.w ≤ out.buf.length) :
    (out.append c).string = out.string ++ [c] ∧
      (out.append c).w ≤ (out.append c).buf.length := by
  have hlen : (out.buf.take out.w).length = out.w := by simp [h]
  constructor
  · simp only [lazybuf.string, lazybuf.append]
    rw [List.take_of_length_le]
    simp [hlen]
  · simp [lazybuf.append, hlen]

theorem lazybuf_foldl_append_string (l : List Char) (out : lazybuf)
    (h : out.w ≤ out.buf.length) :
    (l.foldl lazybuf.append out).string = out.string ++ l ∧
      (l.foldl lazybuf.append out).w ≤ (l.foldl lazybuf.append out).buf.length := by
  induction l generalizing out with
  | nil => simp [h]
  | cons c l ih =>
    obtain ⟨h1, h2⟩ := lazybuf_append_string out c h
    obtain ⟨h3, h4⟩ := ih (out.append c) h2
    simp only [List.foldl_cons]
    exact ⟨by rw [h3, h1]; simp, h4⟩

theorem Clean_backtrack_succ (buf : List Char) (dotdot w : Nat) :
    Clean.backtrack buf dotdot (w + 1) =
      if w + 1 > dotdot ∧ buf.getD (w + 1) (Char.ofNat 0) ≠ '/' then
        Clean.backtrack buf dotdot w
      else w + 1 := rfl

theorem Clean_backtrack_stops (buf : List Char) (dotdot q k : Nat) (hq : dotdot ≤ q)
    (hstop : q = dotdot ∨ buf.getD q (Char.ofNat 0) = '/')
    (hrun : ∀ j, q < j → j ≤ q + k → buf.getD j (Char.ofNat 0) ≠ '/') :
    Clean.backtrack buf dotdot (q + k) = q := by
  induction k with
  | zero =>
    cases q with
    | zero => rfl
    | succ q' =>
      simp only [Nat.add_zero]
      rw [Clean_backtrack_succ, if_neg]
      rintro ⟨h1, h2⟩
      rcases hstop with h | h
      · omega
      · exact h2 h
  | succ k ih =>
    have hstep : Clean.backtrack buf dotdot (q + (k + 1)) = Clean.backtrack buf dotdot (q + k) := by
      show Clean.backtrack buf dotdot ((q + k) + 1) = _
      have hc : q + k + 1 > dotdot ∧ buf.getD (q + k + 1) (Char.ofNat 0) ≠ '/' :=
        ⟨by omega, hrun (q + k + 1) (by omega) (by omega)⟩
      rw [Clean_backtrack_succ, if_pos hc]
    rw [hstep]
    exact ih (fun j h1 h2 => hrun j h1 (by omega))

theorem getD_append_mid (A B C : List Char) (c d : Char) :
    (A ++ c :: (B ++ C)).getD A.length d = c := by
  rw [List.getD_eq_getElem?_getD, List.getElem?_append_right (le_refl _)]
  simp

theorem getD_append_run (A B C : List Char) (c d : Char) (j : Nat) (h1 : A.length < j)
    (h2 : j ≤ A.length + B.length) : (A ++ c :: (B ++ C)).getD j d ∈ B := by
  obtain ⟨i, rfl⟩ : ∃ i, j = A.length + 1 + i := ⟨j - A.length - 1, by omega⟩
  have hi : i < B.length := by omega
  have h : (A ++ c :: (B ++ C)).getD (A.length + 1 + i) d = B[i] := by
    rw [List.getD_eq_getElem?_getD, List.getElem?_append_right (by omega)]
    have : A.length + 1 + i - A.length = i + 1 := by omega
    rw [this, List.getElem?_cons_succ, List.getElem?_append_left hi, List.getElem?_eq_getElem hi]
    rfl
  rw [h]
  exact List.getElem_mem _

theorem Clean_backtrack_drops_last (out : lazybuf) (init : List (List Char)) (last : List Char)
    (hs : out.string = rootedPath (init ++ [last])) (hw : out.w ≤ out.buf.length)
    (hlast : GoodSegment last) :
    ({ out with w := Clean.backtrack out.buf 1 (out.w - 1) } : lazybuf).string = rootedPath init ∧
      Clean.backtrack out.buf 1 (out.w - 1) ≤ out.buf.length := by
  obtain ⟨hne, hslash, -, -⟩ := hlast
  rw [rootedPath_concat] at hs
  have hwlen : out.w = (joinSegments init).length + 1 + last.length := by
    rw [← lazybuf_string_length out hw, hs]
    simp
    omega
  have hbuf : out.buf = joinSegments init ++ '/' :: (last ++ out.buf.drop out.w) := by
    have h := (List.take_append_drop out.w out.buf).symm
    rw [show out.buf.take out.w = out.string from rfl, hs] at h
    simpa using h
  have hlastlen : 1 ≤ last.length := by
    cases last with
    | nil => exact absurd rfl hne
    | cons a t => simp
  have hrun : ∀ j, (joinSegments init).length < j →
      j ≤ (joinSegments init).length + last.length → out.buf.getD j (Char.ofNat 0) ≠ '/' := by
    intro j h1 h2 heq
    have hmem := getD_append_run (joinSegments init) last (out.buf.drop out.w) '/'
      (Char.ofNat 0) j h1 h2
    rw [← hbuf, heq] at hmem
    exact hslash hmem
  by_cases hinit : init = []
  · subst hinit
    simp only [joinSegments, List.length_nil] at hwlen hrun
    have hq : Clean.backtrack out.buf 1 (out.w - 1) = 1 := by
      have : out.w - 1 = 1 + (last.length - 1) := by omega
      rw [this]
      exact Clean_backtrack_stops out.buf 1 1 (last.length - 1) (le_refl 1) (Or.inl rfl)
        (fun j h1 h2 => hrun j (by omega) (by omega))
    rw [hq]
    refine ⟨?_, by omega⟩
    simp only [lazybuf.string, rootedPath, if_true]
    rw [hbuf]
    simp [joinSegments]
  · have hJ : 1 ≤ (joinSegments init).length := by
      cases init with
      | nil => exact absurd rfl hinit
      | cons a t => simp [joinSegments]
    have hq : Clean.backtrack out.buf 1 (out.w - 1) = (joinSegments init).length := by
      have : out.w - 1 = (joinSegments init).length + last.length := by omega
      rw [this]
      refine Clean_backtrack_stops out.buf 1 _ last.length hJ (Or.inr ?_) hrun
      have := getD_append_mid (joinSegments init) last (out.buf.drop out.w) '/' (Char.ofNat 0)
      rw [← hbuf] at this
      exact this
    rw [hq]
    refine ⟨?_, by omega⟩
    simp only [lazybuf.string, rootedPath, hinit, if_false]
    conv_lhs => rw [hbuf]
    simp

theorem takeWhile_not_sep_eq_nil (t : List Char)
    (h : t.takeWhile (fun x => x ≠ '/') = []) : t = [] ∨ t.head? = some '/' := by
  cases t with
  | nil => exact Or.inl rfl
  | cons a t =>
    right
    by_cases ha : a = '/'
    · simp [ha]
    · simp [List.takeWhile_cons, ha] at h

theorem Clean_element_good (c : Char) (t : List Char) (h1 : c ≠ '/')
    (h2 : ¬ (c = '.' ∧ (t = [] ∨ t.head? = some '/')))
    (h3 : ¬ (c = '.' ∧ t.head? = some '.' ∧ (t.tail = [] ∨ t.tail.head? = some '/'))) :
    GoodSegment ((c :: t).takeWhile (fun x => x ≠ '/')) := by
  have hcons : (c :: t).takeWhile (fun x => x ≠ '/') = c :: t.takeWhile (fun x => x ≠ '/') := by
    simp [List.takeWhile_cons, h1]
  refine ⟨by rw [hcons]; simp, ?_, ?_, ?_⟩
  · intro hmem
    have := List.mem_takeWhile_imp hmem
    simp at this
  · rw [hcons]
    intro heq
    simp only [List.cons.injEq] at heq
    exact h2 ⟨heq.1, takeWhile_not_sep_eq_nil t heq.2⟩
  · rw [hcons]
    intro heq
    simp only [List.cons.injEq] at heq
    obtain ⟨hc, ht⟩ := heq
    cases t with
    | nil => simp at ht
    | cons a t' =>
      by_cases ha : a = '/'
      · simp [List.takeWhile_cons, ha] at ht
      · simp only [List.takeWhile_cons, ne_eq, ha, not_false_eq_true, decide_True, if_true,
          List.cons.injEq] at ht
        exact h3 ⟨hc, by simp [ht.1], by simpa using takeWhile_not_sep_eq_nil t' ht.2⟩

/-- On a rooted path the main loop of `Clean` keeps the output of the form
`/s₁/…/sₙ` with every `sᵢ` a kept element. -/
theorem Clean_loop_rooted (fuel : Nat) :
    ∀ (rest : List Char) (out : lazybuf) (segs : List (List Char)),
      out.string = rootedPath segs → out.w ≤ out.buf.length →
      (∀ seg ∈ segs, GoodSegment seg) →
      ∃ segs', (∀ seg ∈ segs', GoodSegment seg) ∧
        (Clean.loop true fuel rest out 1).string = rootedPath segs' ∧
        (Clean.loop true fuel rest out 1).w ≤ (Clean.loop true fuel rest out 1).buf.length := by
  induction fuel with
  | zero =>
    intro rest out segs hs hw hg
    exact ⟨segs, hg, hs, hw⟩
  | succ fuel ih =>
    intro rest out segs hs hw hg
    cases rest with
    | nil => exact ⟨segs, hg, hs, hw⟩
    | cons c t =>
      unfold Clean.loop
      simp only []
      by_cases h1 : c = '/'
      · rw [if_pos h1]
        exact ih t out segs hs hw hg
      · rw [if_neg h1]
        by_cases h2 : c = '.' ∧ (t = [] ∨ t.head? = some '/')
        · rw [if_pos h2]
          exact ih t out segs hs hw hg
        · rw [if_neg h2]
          by_cases h3 : c = '.' ∧ t.head? = some '.' ∧ (t.tail = [] ∨ t.tail.head? = some '/')
          · rw [if_pos h3]
            by_cases h4 : out.w > 1
            · rw [if_pos h4]
              have hsegs : segs ≠ [] := by
                intro hnil
                have := lazybuf_string_length out hw
                rw [hs, hnil] at this
                simp [rootedPath] at this
                omega
              rcases List.eq_nil_or_concat segs with hnil | ⟨init, last, hcat⟩
              · exact absurd hnil hsegs
              · rw [List.concat_eq_append] at hcat
                subst hcat
                obtain ⟨hs', hw'⟩ := Clean_backtrack_drops_last out init last hs hw
                  (hg last (by simp))
                exact ih t.tail _ init hs' hw' (fun seg h => hg seg (by simp [h]))
            · rw [if_neg h4]
              simp only [not_true_eq_false, if_false]
              exact ih t.tail out segs hs hw hg
          · rw [if_neg h3]
            have hgood := Clean_element_good c t h1 h2 h3
            have hlen := lazybuf_string_length out hw
            by_cases hsegs : segs = []
            · -- the output is the root alone: no separator is added
              have hw1 : out.w = 1 := by
                rw [← hlen, hs, hsegs]
                simp [rootedPath]
              have hcond : ¬ ((True ∧ out.w ≠ 1) ∨ (¬ True ∧ out.w ≠ 0)) := by
                simp [hw1]
              rw [if_neg hcond]
              obtain ⟨h5, h6⟩ := lazybuf_foldl_append_string
                ((c :: t).takeWhile (fun x => x ≠ '/')) out hw
              refine ih _ _ [(c :: t).takeWhile (fun x => x ≠ '/')] ?_ h6 ?_
              · rw [h5, hs, hsegs]
                simp [rootedPath, joinSegments]
              · intro seg hseg
                simp only [List.mem_singleton] at hseg
                rw [hseg]
                exact hgood
            · have hw1 : out.w ≠ 1 := by
                rw [← hlen, hs]
                cases segs with
                | nil => exact absurd rfl hsegs
                | cons a t' =>
                  have hane : a ≠ [] := (hg a (by simp)).1
                  cases a with
                  | nil => exact absurd rfl hane
                  | cons x a' => simp [rootedPath, joinSegments]
              have hcond : (True ∧ out.w ≠ 1) ∨ (¬ True ∧ out.w ≠ 0) :=
                Or.inl ⟨trivial, hw1⟩
              rw [if_pos hcond]
              obtain ⟨h5, h6⟩ := lazybuf_append_string out '/' hw
              obtain ⟨h7, h8⟩ := lazybuf_foldl_append_string
                ((c :: t).takeWhile (fun x => x ≠ '/')) (out.append '/') h6
              refine ih _ _ (segs ++ [(c :: t).takeWhile (fun x => x ≠ '/')]) ?_ h8 ?_
              · rw [h7, h5, hs, rootedPath_concat]
                simp [rootedPath, hsegs]
              · intro seg hseg
                rcases List.mem_append.mp hseg with h | h
                · exact hg seg h
                · simp only [List.mem_singleton] at h
                  rw [h]
                  exact hgood

theorem Clean_loop_cons (rooted : Bool) (fuel : Nat) (c : Char) (t : List Char)
    (out : lazybuf) (dotdot : Nat) :
    Clean.loop rooted (fuel + 1) (c :: t) out dotdot =
      if c = '/' then Clean.loop rooted fuel t out dotdot
      else if c = '.' ∧ (t = [] ∨ t.head? = some '/') then Clean.loop rooted fuel t out dotdot
      else if c = '.' ∧ t.head? = some '.' ∧ (t.tail = [] ∨ t.tail.head? = some '/') then
        if out.w > dotdot then
          Clean.loop rooted fuel t.tail
            { out with w := Clean.backtrack out.buf dotdot (out.w - 1) } dotdot
        else if ¬ rooted then
          Clean.loop rooted fuel t.tail
            (((if out.w > 0 then out.append '/' else out).append '.').append '.')
            (((if out.w > 0 then out.append '/' else out).append '.').append '.').w
        else Clean.loop rooted fuel t.tail out dotdot
      else
        Clean.loop rooted fuel ((c :: t).dropWhile (fun x => x ≠ '/'))
          (((c :: t).takeWhile (fun x => x ≠ '/')).foldl lazybuf.append
            (if (rooted ∧ out.w ≠ 1) ∨ (¬ rooted ∧ out.w ≠ 0) then out.append '/' else out))
          dotdot := rfl

/-- The bound on the iterations of the main loop of `Clean` is never reached:
one more iteration than the length of the remaining input changes nothing. -/
theorem Clean_loop_fuel (rooted : Bool) (fuel : Nat) :
    ∀ (rest : List Char) (out : lazybuf) (dotdot : Nat), rest.length ≤ fuel →
      Clean.loop rooted (fuel + 1) rest out dotdot = Clean.loop rooted fuel rest out dotdot := by
  induction fuel with
  | zero =>
    intro rest out dotdot h
    have : rest = [] := List.length_eq_zero.mp (Nat.le_zero.mp h)
    subst this
    rfl
  | succ fuel ih =>
    intro rest out dotdot h
    cases rest with
    | nil => rfl
    | cons c t =>
      have ht : t.length ≤ fuel := by simpa using h
      have htt : t.tail.length ≤ fuel := by
        have := List.length_tail t
        omega
      rw [Clean_loop_cons rooted (fuel + 1) c t out dotdot,
        Clean_loop_cons rooted fuel c t out dotdot]
      by_cases h1 : c = '/'
      · simp only [h1, if_true]
        exact ih t out dotdot ht
      · have hdrop : ((c :: t).dropWhile (fun x => x ≠ '/')).length ≤ fuel := by
          have : (c :: t).dropWhile (fun x => x ≠ '/') = t.dropWhile (fun x => x ≠ '/') := by
            simp [List.dropWhile_cons, h1]
          rw [this]
          exact le_trans (List.dropWhile_sublist _).length_le ht
        simp only [h1, if_false]
        split_ifs <;> first | exact ih _ _ _ ht | exact ih _ _ _ htt | exact ih _ _ _ hdrop

theorem Clean_chars_rooted (name : List Char) :
    ∃ segs, (∀ seg ∈ segs, GoodSegment seg) ∧ Clean.chars ('/' :: name) = rootedPath segs := by
  obtain ⟨segs, hg, hs, hw⟩ := Clean_loop_rooted ('/' :: name).length name
    (({ buf := [], w := 0 } : lazybuf).append '/') [] rfl (by simp [lazybuf.append])
    (by simp)
  refine ⟨segs, hg, ?_⟩
  have hlen := lazybuf_string_length _ hw
  have hpos := rootedPath_length_pos segs
  rw [hs] at hlen
  simp only [Clean.chars, decide_True, if_true, List.drop_succ_cons, List.drop_zero]
  rw [if_neg (by omega)]
  exact hs

theorem Clean_rooted (name : String) :
    ∃ segs, (∀ seg ∈ segs, GoodSegment seg) ∧
      (Clean (DirSeparator ++ name)).data = rootedPath segs := by
  obtain ⟨segs, hg, hs⟩ := Clean_chars_rooted name.data
  refine ⟨segs, hg, ?_⟩
  simp only [Clean, DirSeparator, String.data_append]
  exact hs

/-- The cleaned name the scanner computes is never `"."`. -/
theorem Clean_rooted_ne_dot (name : String) : Clean (DirSeparator ++ name) ≠ "." := by
  obtain ⟨segs, -, hs⟩ := Clean_rooted name
  intro h
  rw [h] at hs
  cases segs with
  | nil => simp [rootedPath] at hs
  | cons a t => simp [rootedPath, joinSegments] at hs

theorem joinSegments_eq_intercalate (segs : List (List Char)) (h : segs ≠ []) :
    joinSegments segs = '/' :: List.intercalate ['/'] segs := by
  induction segs with
  | nil => exact absurd rfl h
  | cons a t ih =>
    cases t with
    | nil => simp [joinSegments, List.intercalate]
    | cons b t =>
      have := ih (by simp)
      simp [joinSegments, List.intercalate] at this ⊢
      exact this

theorem chain_of_no_separator (l : List Char) (h : '/' ∉ l) :
    List.Chain' (fun a b => ¬ (a = '/' ∧ b = '/')) l := by
  induction l with
  | nil => exact List.chain'_nil
  | cons a t ih =>
    rw [List.chain'_cons']
    refine ⟨?_, ih (fun hm => h (List.mem_cons_of_mem _ hm))⟩
    intro y _ hay
    exact h (by rw [← hay.1]; exact List.mem_cons_self _ _)

theorem joinSegments_chain (segs : List (List Char)) (hg : ∀ seg ∈ segs, GoodSegment seg) :
    List.Chain' (fun a b => ¬ (a = '/' ∧ b = '/')) (joinSegments segs) := by
  induction segs with
  | nil => exact List.chain'_nil
  | cons seg rest ih =>
    obtain ⟨hne, hsep, -, -⟩ := hg seg (List.mem_cons_self _ _)
    have hrest := ih (fun x hx => hg x (List.mem_cons_of_mem _ hx))
    have happ : List.Chain' (fun a b => ¬ (a = '/' ∧ b = '/')) (seg ++ joinSegments rest) := by
      refine List.Chain'.append (chain_of_no_separator seg hsep) hrest ?_
      intro x hx y _ hxy
      exact hsep (by rw [← hxy.1]; exact List.mem_of_mem_getLast? hx)
    show List.Chain' _ ('/' :: (seg ++ joinSegments rest))
    rw [List.chain'_cons']
    refine ⟨?_, happ⟩
    intro y hy hxy
    cases seg with
    | nil => exact hne rfl
    | cons c seg' =>
      simp only [List.cons_append, List.head?_cons, Option.mem_def, Option.some.injEq] at hy
      exact hsep (by rw [← hxy.2, ← hy]; exact List.mem_cons_self _ _)

theorem joinSegments_getLast (segs : List (List Char)) (hg : ∀ seg ∈ segs, GoodSegment seg) :
    (joinSegments segs).getLast? ≠ some '/' := by
  induction segs with
  | nil => simp [joinSegments]
  | cons seg rest ih =>
    obtain ⟨hne, hsep, -, -⟩ := hg seg (List.mem_cons_self _ _)
    have hrest := ih (fun x hx => hg x (List.mem_cons_of_mem _ hx))
    cases seg with
    | nil => exact absurd rfl hne
    | cons c seg' =>
      show ('/' :: ((c :: seg') ++ joinSegments rest)).getLast? ≠ some '/'
      rw [List.cons_append, List.getLast?_cons_cons, ← List.cons_append, List.getLast?_append]
      cases hj : (joinSegments rest).getLast? with
      | some y =>
        rw [hj] at hrest
        simpa using hrest
      | none =>
        simp only [Option.or]
        intro hlast
        exact hsep (List.mem_of_getLast?_eq_some hlast)

theorem rootedPath_tail_getLast (segs : List (List Char))
    (hg : ∀ seg ∈ segs, GoodSegment seg) : (rootedPath segs).tail.getLast? ≠ some '/' := by
  cases segs with
  | nil => simp [rootedPath]
  | cons seg rest =>
    obtain ⟨hne, hsep, -, -⟩ := hg seg (List.mem_cons_self _ _)
    have hrest := joinSegments_getLast rest (fun x hx => hg x (List.mem_cons_of_mem _ hx))
    show (seg ++ joinSegments rest).getLast? ≠ some '/'
    rw [List.getLast?_append]
    cases hj : (joinSegments rest).getLast? with
    | some y =>
      rw [hj] at hrest
      simpa using hrest
    | none =>
      simp only [Option.or]
      intro hlast
      exact hsep (List.mem_of_getLast?_eq_some hlast)

theorem rootedPath_segments (segs : List (List Char)) (hg : ∀ seg ∈ segs, GoodSegment seg) :
    pathSegments (rootedPath segs) = segs := by
  by_cases hne : segs = []
  · subst hne
    rfl
  · have h : rootedPath segs = '/' :: List.intercalate ['/'] segs := by
      simp only [rootedPath, hne, if_false]
      exact joinSegments_eq_intercalate segs hne
    have htail : List.intercalate ['/'] segs ≠ [] := by
      intro h0
      have hsplit := List.splitOn_intercalate segs '/' (fun l hl => (hg l hl).2.1) hne
      rw [h0] at hsplit
      have hmem : ([] : List Char) ∈ segs := by
        rw [← hsplit]
        simp [List.splitOn_nil]
      exact (hg [] hmem).1 rfl
    unfold pathSegments
    rw [h, List.tail_cons, if_neg htail]
    exact List.splitOn_intercalate segs '/' (fun l hl => (hg l hl).2.1) hne

theorem rootedPath_normalized (segs : List (List Char))
    (hg : ∀ seg ∈ segs, GoodSegment seg) : Normalized (String.mk (rootedPath segs)) := by
  refine ⟨?_, ?_, ?_, rootedPath_tail_getLast segs hg⟩
  · cases segs with
    | nil => rfl
    | cons seg rest => simp [rootedPath, joinSegments]
  · show ∀ seg ∈ pathSegments (rootedPath segs), _
    rw [rootedPath_segments segs hg]
    intro seg hseg
    exact ⟨(hg seg hseg).1, (hg seg hseg).2.2.1, (hg seg hseg).2.2.2⟩
  · show List.Chain' _ (rootedPath segs)
    by_cases hne : segs = []
    · subst hne
      exact List.chain'_singleton _
    · simp only [rootedPath, hne, if_false]
      exact joinSegments_chain segs hg

/-- The cleaned name the scanner computes is a normalized absolute path. -/
theorem Clean_rooted_normalized (name : String) :
    Normalized (Clean (DirSeparator ++ name)) := by
  obtain ⟨segs, hg, hs⟩ := Clean_rooted name
  have hmk : Clean (DirSeparator ++ name) = String.mk (rootedPath segs) := by
    rw [← hs]
  rw [hmk]
  exact rootedPath_normalized segs hg

theorem Clean_loop_fuel_ge (rooted : Bool) (rest : List Char) (out : lazybuf) (dotdot : Nat)
    (k : Nat) :
    Clean.loop rooted (rest.length + k) rest out dotdot =
      Clean.loop rooted rest.length rest out dotdot := by
  induction k with
  | zero => rfl
  | succ k ih =>
    rw [← ih]
    exact Clean_loop_fuel rooted (rest.length + k) rest out dotdot (Nat.le_add_right _ _)

/-! ## Properties of `EnumerateFileMetadataFromTar` -/

theorem EnumerateFileMetadataFromTar_loop_sent (nextErr : Option String) (es : List TarEntry)
    (sent : List Metadata) (logged : List LogEvent) :
    (EnumerateFileMetadataFromTar.loop nextErr es sent logged).sent =
      sent ++ (es.filter (fun e =>
        decide (e.hdr.Typeflag ≠ TypeXGlobalHeader ∧ e.hdr.Typeflag ≠ TypeXHeader))).map
          (fun e => Metadata.ofHeader (Clean (DirSeparator ++ e.hdr.Name)) e.hdr) := by
  induction es generalizing sent logged with
  | nil =>
    unfold EnumerateFileMetadataFromTar.loop
    cases nextErr <;> simp
  | cons e es ih =>
    unfold EnumerateFileMetadataFromTar.loop
    simp only []
    rw [if_neg (Clean_rooted_ne_dot e.hdr.Name)]
    by_cases hg : e.hdr.Typeflag = TypeXGlobalHeader
    · rw [if_pos hg, ih, List.filter_cons_of_neg (by simp [hg])]
    · rw [if_neg hg]
      by_cases hx : e.hdr.Typeflag = TypeXHeader
      · rw [if_pos hx, ih, List.filter_cons_of_neg (by simp [hx])]
      · rw [if_neg hx, ih, List.filter_cons_of_pos (by simp [hg, hx])]
        simp

theorem EnumerateFileMetadataFromTar_loop_closed (nextErr : Option String)
    (es : List TarEntry) (sent : List Metadata) (logged : List LogEvent) :
    (EnumerateFileMetadataFromTar.loop nextErr es sent logged).closed = nextErr.isNone := by
  induction es generalizing sent logged with
  | nil =>
    unfold EnumerateFileMetadataFromTar.loop
    cases nextErr <;> rfl
  | cons e es ih =>
    unfold EnumerateFileMetadataFromTar.loop
    simp only []
    split_ifs <;> exact ih _ _

theorem EnumerateFileMetadataFromTar_sent (reader : Archive) :
    (EnumerateFileMetadataFromTar reader).sent =
      (reader.entries.filter (fun e =>
        decide (e.hdr.Typeflag ≠ TypeXGlobalHeader ∧ e.hdr.Typeflag ≠ TypeXHeader))).map
          (fun e => Metadata.ofHeader (Clean (DirSeparator ++ e.hdr.Name)) e.hdr) := by
  have h := EnumerateFileMetadataFromTar_loop_sent reader.nextErr reader.entries [] []
  simpa using h

/-- C6: the records sent by `EnumerateFileMetadataFromTar` are, in archive
order, the records of exactly the members whose type flag is neither the
global nor the per-entry extended header; such a member yields no record
wherever it stands, and the members after it are still visited. -/
theorem EnumerateFileMetadataFromTar_skips_extension_headers (reader : Archive) :
    (EnumerateFileMetadataFromTar reader).sent =
      (reader.entries.filter (fun e =>
        decide (e.hdr.Typeflag ≠ TypeXGlobalHeader ∧ e.hdr.Typeflag ≠ TypeXHeader))).map
          (fun e => Metadata.ofHeader (Clean (DirSeparator ++ e.hdr.Name)) e.hdr) ∧
    ∀ m ∈ (EnumerateFileMetadataFromTar reader).sent,
      m.TypeFlag ≠ TypeXGlobalHeader ∧ m.TypeFlag ≠ TypeXHeader := by
  refine ⟨EnumerateFileMetadataFromTar_sent reader, ?_⟩
  intro m hm
  rw [EnumerateFileMetadataFromTar_sent reader] at hm
  obtain ⟨e, he, rfl⟩ := List.mem_map.mp hm
  have := (List.mem_filter.mp he).2
  simpa [Metadata.ofHeader] using this

/-- C4: every record sent by `EnumerateFileMetadataFromTar` has as path the
cleaned form of the separator followed by the member's name and keeps the
member's name as tar header name; the path begins with the separator, has no
element `.` or `..`, no empty element, no doubled separator, and no separator
at its end other than the leading one. The members `a`, `./b` and `c/../c`
are sent once each, with the paths `/a`, `/b` and `/c`. -/
theorem EnumerateFileMetadataFromTar_path_cleaned :
    (∀ (reader : Archive), ∀ m ∈ (EnumerateFileMetadataFromTar reader).sent,
      ∃ e ∈ reader.entries, m.Path = Clean (DirSeparator ++ e.hdr.Name) ∧
        m.TarHeaderName = e.hdr.Name ∧ Normalized m.Path) ∧
    (EnumerateFileMetadataFromTar
      { entries := [sampleFile "a" "", sampleFile "./b" "", sampleFile "c/../c" ""],
        nextErr := none }).sent.map (fun m => (m.TarHeaderName, m.Path)) =
      [("a", "/a"), ("./b", "/b"), ("c/../c", "/c")] := by
  refine ⟨?_, by decide⟩
  intro reader m hm
  rw [EnumerateFileMetadataFromTar_sent reader] at hm
  obtain ⟨e, he, rfl⟩ := List.mem_map.mp hm
  exact ⟨e, (List.mem_filter.mp he).1, rfl, rfl, Clean_rooted_normalized e.hdr.Name⟩

/-- The scanner closes its channel exactly when the tar reader ends with
`io.EOF`. -/
theorem EnumerateFileMetadataFromTar_closed (reader : Archive) :
    (EnumerateFileMetadataFromTar reader).closed = reader.nextErr.isNone :=
  EnumerateFileMetadataFromTar_loop_closed reader.nextErr reader.entries [] []

/-- C5: members whose cleaned name is the root alone (`""`, `.`, `./`, `/`,
`a/..`) are not dropped by `EnumerateFileMetadataFromTar`: each yields a record
whose path is the root `/`. -/
theorem EnumerateFileMetadataFromTar_emits_root_entries :
    (EnumerateFileMetadataFromTar
      { entries := [sampleFile "" "", sampleFile "." "", sampleFile "./" "",
          sampleFile "/" "", sampleFile "a/.." ""],
        nextErr := none }).sent.map (fun m => (m.TarHeaderName, m.Path)) =
      [("", "/"), (".", "/"), ("./", "/"), ("/", "/"), ("a/..", "/")] := by
  decide

/-- C10: when the tar reader reports a read error after the member `a`, the
scanner sends the record of `a`, logs the error and ends without closing the
channel; at the natural end of the same members it closes the channel. -/
theorem EnumerateFileMetadataFromTar_read_error_leaves_channel_open :
    EnumerateFileMetadataFromTar
        { entries := [sampleFile "a" "x"], nextErr := some "unexpected EOF" } =
      { sent := [Metadata.ofHeader "/a" (sampleHeader "a" '0')], closed := false,
        logged := [.nextFailed "unexpected EOF"] } ∧
    EnumerateFileMetadataFromTar { entries := [sampleFile "a" "x"], nextErr := none } =
      { sent := [Metadata.ofHeader "/a" (sampleHeader "a" '0')], closed := true,
        logged := [] } :=
  ⟨by decide, by decide⟩

end Stereoscope
